import Mathlib

/-!
Verification development for the pipe-delimited CSV splitter
(`Split_File.py`, primary implementation, and `split_xpnfile.py`, the
simpler sibling variant).

A file is modelled as a list of logical lines; a line is its list of
characters (the Python code treats lines as strings, inspecting only
prefixes, `split("|")` fields and `int(...)` parses, all of which are
modelled below on character lists).  Functions named after the Python
functions (`parse_header_and_meta`, `parse_groups_and_footer`,
`extract_job_code`, `validate_footer`, `write_batches`) are shallow
embeddings of the corresponding source; fallible code returns `Except`.
Variant functions from `split_xpnfile.py` carry an `x_` prefix and model
Python runtime errors (IndexError, range step errors) as explicit error
values.
-/

/-- A logical line of the input file, as its sequence of characters. -/
abbrev Line := List Char

/-- `startsWith s tag` models Python's `s.startswith(tag)`. -/
def startsWith (s tag : Line) : Bool := tag.isPrefixOf s

/-- Leading tag of the header line: `"JOB|"`. -/
def jobTag : Line := ['J', 'O', 'B', '|']

/-- Leading tag of metadata lines: `"META_"`. -/
def metaTag : Line := ['M', 'E', 'T', 'A', '_']

/-- Leading tag of correlation lines: `"CLNT_CORR|"`. -/
def corrTag : Line := ['C', 'L', 'N', 'T', '_', 'C', 'O', 'R', 'R', '|']

/-- Leading tag of role lines: `"CLNT_ROLE|"`. -/
def roleTag : Line := ['C', 'L', 'N', 'T', '_', 'R', 'O', 'L', 'E', '|']

/-- Leading tag of plan lines: `"PLAN|"`. -/
def planTag : Line := ['P', 'L', 'A', 'N', '|']

/-- Leading tag of the footer line: `"FOOTER|"`. -/
def footerTag : Line := ['F', 'O', 'O', 'T', 'E', 'R', '|']

/-- `line.startswith("JOB|")`. -/
def isJob (l : Line) : Bool := startsWith l jobTag

/-- `line.startswith("META_")`. -/
def isMeta (l : Line) : Bool := startsWith l metaTag

/-- `line.startswith("CLNT_CORR|")`. -/
def isCorr (l : Line) : Bool := startsWith l corrTag

/-- `line.startswith("CLNT_ROLE|")`. -/
def isRole (l : Line) : Bool := startsWith l roleTag

/-- `line.startswith("PLAN|")`. -/
def isPlan (l : Line) : Bool := startsWith l planTag

/-- `line.startswith("FOOTER|")`, the `at_footer` test of the source. -/
def isFooter (l : Line) : Bool := startsWith l footerTag

/-! ## Splitting on the pipe delimiter

`splitPipe` models Python's `s.split("|")` for the single-character
separator `"|"`: the list of fields between occurrences of `'|'`,
always at least one field, fields never containing the separator. -/

/-- Python's `s.split("|")` on a character list. -/
def splitPipe : Line → List Line
  | [] => [[]]
  | c :: cs =>
    if c == '|' then [] :: splitPipe cs
    else
      match splitPipe cs with
      | [] => [[c]]
      | f :: rest => (c :: f) :: rest

/-! ## Decimal integers

`validate_footer` calls Python's `int(count_str)`; the batch writer
embeds the actual chunk count in the footer with `f"...|{count}"`.
`parseInt` models `int(...)` for an optional sign and decimal digits,
with surrounding ASCII whitespace stripped (Python also accepts
underscore separators and Unicode digits; no input in this development
uses them).  `natRepr` models the decimal rendering of a nonnegative
count by an f-string. -/

/-- The ASCII whitespace characters Python's `int(...)` strips. -/
def isSpaceCh (c : Char) : Bool :=
  c == ' ' || c == '\t' || c == '\n' || c == '\r' || c == '\x0b' || c == '\x0c'

/-- Decimal digit test, `'0'..'9'`. -/
def isDigitCh (c : Char) : Bool := 48 ≤ c.toNat && c.toNat ≤ 57

/-- Strip leading and trailing whitespace. -/
def trimWs (s : Line) : Line :=
  ((s.dropWhile isSpaceCh).reverse.dropWhile isSpaceCh).reverse

/-- Value of a digit character. -/
def digitVal (c : Char) : Nat := c.toNat - 48

/-- One step of reading a decimal numeral left to right. -/
def digitsAccum (a : Nat) (c : Char) : Nat := a * 10 + digitVal c

/-- A nonempty all-digit string read as a number; `none` otherwise. -/
def digitsToNat (s : Line) : Option Nat :=
  if (!s.isEmpty) && s.all isDigitCh then some (s.foldl digitsAccum 0) else none

/-- Sign handling of Python's `int(...)`: an optional leading `-` or `+`,
then decimal digits. -/
def parseSigned : Line → Option Int
  | [] => none
  | c :: rest =>
    if c == '-' then (digitsToNat rest).map (fun n => -(n : Int))
    else if c == '+' then (digitsToNat rest).map (fun n => (n : Int))
    else (digitsToNat (c :: rest)).map (fun n => (n : Int))

/-- Python's `int(count_str)` on sign-and-digits input. -/
def parseInt (s : Line) : Option Int := parseSigned (trimWs s)

/-- The decimal digit character of `d` (for `d ≤ 9`; values above nine do
not occur). -/
def digitChar : Nat → Char
  | 0 => '0' | 1 => '1' | 2 => '2' | 3 => '3' | 4 => '4'
  | 5 => '5' | 6 => '6' | 7 => '7' | 8 => '8' | _ => '9'

/-- Decimal rendering of a natural number, most significant digit first,
as Python's string formatting produces it. -/
def natRepr (n : Nat) : Line :=
  if n < 10 then [digitChar n] else natRepr (n / 10) ++ [digitChar (n % 10)]
decreasing_by
  exact Nat.div_lt_self (by omega) (by omega)

/-! ## The primary implementation (`Split_File.py`)

Errors carry the same context as the Python `ValueError` messages:
1-based line numbers, offending content, observed counts.  Two raises in
the source map to `MalformedHeader` (the `JOB|` prefix check of
`parse_header_and_meta` and the field-count check of
`extract_job_code`), matching the spec's taxonomy. -/

/-- The failure taxonomy of the primary implementation. -/
inductive Err where
  | EmptyInput
  | MalformedHeader
  | MissingMetadata
  | ExpectedCorrelation (lineNo : Nat) (content : Line)
  | UnexpectedLine (lineNo : Nat) (content : Line)
  | IncompleteItem (corr : Line) (roles plans : Nat)
  | MissingFooter
  | MalformedFooter
  | FooterJobMismatch (found expected : Line)
  | InvalidBatchSize
deriving DecidableEq, Repr

/-- `parse_header_and_meta` of `Split_File.py`: the first line must be
tagged `JOB|`; then the maximal run of `META_` lines, which must be
nonempty; returns the header line, the metadata lines and the index of
the first line after them. -/
def parse_header_and_meta (lines : List Line) :
    Except Err (Line × List Line × Nat) :=
  match lines with
  | [] => .error .EmptyInput
  | job_line :: rest =>
    if isJob job_line = false then .error .MalformedHeader
    else
      let meta_lines := rest.takeWhile isMeta
      if meta_lines = [] then .error .MissingMetadata
      else .ok (job_line, meta_lines, 1 + meta_lines.length)

/-- The inner loop of `parse_groups_and_footer`: consume role and plan
lines (counting each kind) until a footer line, a correlation line or
the end of input; any other line is an immediate failure.  Returns the
consumed lines and the two counts; the caller resumes after
`body.length` consumed lines, as the Python index `i` does.  The `i`
argument is the 0-based index of the first line of `ls` in the whole
file, used only for error context. -/
def parseBody : List Line → Nat → Except Err (List Line × Nat × Nat)
  | [], _ => .ok ([], 0, 0)
  | l :: ls, i =>
    if isFooter l || isCorr l then .ok ([], 0, 0)
    else if isRole l then
      match parseBody ls (i + 1) with
      | .error e => .error e
      | .ok (body, r, p) => .ok (l :: body, r + 1, p)
    else if isPlan l then
      match parseBody ls (i + 1) with
      | .error e => .error e
      | .ok (body, r, p) => .ok (l :: body, r, p + 1)
    else .error (.UnexpectedLine (i + 1) l)

/-- The outer loop of `parse_groups_and_footer`, on the lines from the
current position: stop successfully at a footer line; at the end of
input fail with `MissingFooter`; otherwise demand a correlation line,
parse one item body after it, require at least one role and one plan
line, and continue after the item.  `fuel` only pays for the recursion
and every call supplies `fuel ≥ length of the list`, which the first
two equations make sufficient (each item consumes at least one line). -/
def parseItemsF : Nat → List Line → Nat → Except Err (List (List Line) × Line)
  | _, [], _ => .error .MissingFooter
  | 0, _ :: _, _ => .error .MissingFooter
  | fuel + 1, l :: ls, i =>
    if isFooter l then .ok ([], l)
    else if isCorr l = false then .error (.ExpectedCorrelation (i + 1) l)
    else
      match parseBody ls (i + 1) with
      | .error e => .error e
      | .ok (body, r, p) =>
        if r = 0 ∨ p = 0 then .error (.IncompleteItem l r p)
        else
          match parseItemsF fuel (ls.drop body.length) (i + 1 + body.length) with
          | .error e => .error e
          | .ok (groups, f) => .ok ((l :: body) :: groups, f)

/-- `parse_groups_and_footer` of `Split_File.py`, starting at
`start_idx`: the list of items (each an ordered list of lines) and the
footer line.  (The Python re-check `footer_line.startswith("FOOTER|")`
after the loop is dead code: the loop only stops successfully at a
footer line.) -/
def parse_groups_and_footer (lines : List Line) (start_idx : Nat) :
    Except Err (List (List Line) × Line) :=
  parseItemsF (lines.drop start_idx).length (lines.drop start_idx) start_idx

/-- `extract_job_code`: the second `|`-separated field of the header
line; fails when fewer than two fields exist. -/
def extract_job_code (job_line : Line) : Except Err Line :=
  match splitPipe job_line with
  | _ :: p :: _ => .ok p
  | _ => .error .MalformedHeader

/-- `validate_footer`: exactly three `|`-separated fields; the job code
field must equal the header's job code; the count field must parse as
an integer.  A declared count different from the actual total is only a
warning: the returned Bool records whether the warning was printed. -/
def validate_footer (footer_line : Line) (expected_job_code : Line)
    (expected_total : Nat) : Except Err Bool :=
  match splitPipe footer_line with
  | [_, job_code, count_str] =>
    if job_code ≠ expected_job_code then
      .error (.FooterJobMismatch job_code expected_job_code)
    else
      match parseInt count_str with
      | none => .error .MalformedFooter
      | some orig_count => .ok (orig_count != (expected_total : Int))
  | _ => .error .MalformedFooter

/-- The validated in-memory document `main` assembles before writing:
header line, metadata lines, items, job code, and whether the declared
footer count disagreed with the actual one (warning only). -/
structure Document where
  job_line : Line
  meta_lines : List Line
  groups : List (List Line)
  job_code : Line
  warn : Bool
deriving DecidableEq, Repr

/-- The parsing-and-validation phase of `main` in `Split_File.py`
(everything before `write_batches`). -/
def run_main (lines : List Line) : Except Err Document :=
  match parse_header_and_meta lines with
  | .error e => .error e
  | .ok (job_line, meta_lines, idx) =>
    match parse_groups_and_footer lines idx with
    | .error e => .error e
    | .ok (groups, footer_line) =>
      match extract_job_code job_line with
      | .error e => .error e
      | .ok job_code =>
        match validate_footer footer_line job_code groups.length with
        | .error e => .error e
        | .ok warn => .ok ⟨job_line, meta_lines, groups, job_code, warn⟩

/-! ## The batch writer -/

/-- The chunks `range(0, total, items_per_file)` slices `groups` into,
for batch size `b + 1`.  `fuel` only pays for the recursion; every call
supplies `fuel ≥ length of the list`, which suffices since each chunk
consumes at least one element. -/
def chunksF (b : Nat) : Nat → List (List Line) → List (List (List Line))
  | _, [] => []
  | 0, _ :: _ => []
  | fuel + 1, x :: xs => (x :: xs).take (b + 1) :: chunksF b fuel (xs.drop b)

/-- The contiguous batches of `groups` for a positive batch size `b + 1`. -/
def batchChunks (b : Nat) (groups : List (List Line)) :
    List (List (List Line)) :=
  chunksF b groups.length groups

/-- The footer line `f"FOOTER|{job_code}|{count}"` written for a chunk. -/
def footerRender (job_code : Line) (count : Nat) : Line :=
  footerTag ++ job_code ++ '|' :: natRepr count

/-- The lines written to one output file: header, metadata, every line
of every item of the chunk in order, and the freshly computed footer. -/
def renderChunk (job_line : Line) (meta_lines : List Line) (job_code : Line)
    (chunk : List (List Line)) : List Line :=
  job_line :: meta_lines ++ chunk.flatten ++ [footerRender job_code chunk.length]

/-- `write_batches` of `Split_File.py`: reject a non-positive
`items_per_file`, otherwise emit one file per chunk (the filesystem side
is modelled by returning the list of files, each a list of lines, in
the order they are written). -/
def write_batches (job_line : Line) (meta_lines : List Line)
    (groups : List (List Line)) (items_per_file : Int) (job_code : Line) :
    Except Err (List (List Line)) :=
  if items_per_file ≤ 0 then .error .InvalidBatchSize
  else .ok ((batchChunks (items_per_file.toNat - 1) groups).map
      (renderChunk job_line meta_lines job_code))

/-! ## The sibling variant (`split_xpnfile.py`)

Only the parts the claims touch are embedded.  Python runtime errors
are explicit values: `IndexError` for an out-of-range `lines[i]`, and
`RangeZeroStep` for `range(0, total, 0)`. -/

/-- Failures of the variant, including its runtime errors. -/
inductive XErr where
  | IndexError
  | MalformedHeader
  | ExpectedCorr (lineNo : Nat)
  | ExpectedRole (lineNo : Nat)
  | ExpectedPlan (lineNo : Nat)
  | MissingFooter
  | RangeZeroStep
deriving DecidableEq, Repr

/-- The variant's `parse_header_and_meta`: `lines[0]` is read with no
emptiness guard (an `IndexError` on empty input), the `JOB|` prefix is
required, and the maximal `META_` run follows — with no requirement that
it be nonempty: zero metadata lines parse successfully. -/
def x_parse_header_and_meta (lines : List Line) :
    Except XErr (Line × List Line × Nat) :=
  match lines with
  | [] => .error .IndexError
  | job_line :: rest =>
    if isJob job_line = false then .error .MalformedHeader
    else .ok (job_line, rest.takeWhile isMeta,
      1 + (rest.takeWhile isMeta).length)

/-- The loop of the variant's `parse_groups_and_footer`: after a
correlation line it reads `lines[i]` for the role line and then for the
plan line without bounds checks, so input exhausted mid-item is an
`IndexError`, not `MissingFooter`. -/
def xParseItems : List Line → Nat → Except XErr (List (List Line) × Line)
  | [], _ => .error .MissingFooter
  | l :: ls, i =>
    if isFooter l then .ok ([], l)
    else if isCorr l = false then .error (.ExpectedCorr (i + 1))
    else
      match ls with
      | [] => .error .IndexError
      | r :: ls₂ =>
        if isRole r = false then .error (.ExpectedRole (i + 2))
        else
          match ls₂ with
          | [] => .error .IndexError
          | p :: ls₃ =>
            if isPlan p = false then .error (.ExpectedPlan (i + 3))
            else
              match xParseItems ls₃ (i + 3) with
              | .error e => .error e
              | .ok (groups, f) => .ok ([l, r, p] :: groups, f)

/-- The variant's `extract_job_code`: `job_line.split("|")[1]` with no
guard; on fewer than two fields the subscript is an `IndexError`. -/
def x_extract_job_code (job_line : Line) : Except XErr Line :=
  match splitPipe job_line with
  | _ :: p :: _ => .ok p
  | _ => .error .IndexError

/-- The variant's `write_batches`: no batch-size check.
`range(0, total, step)` raises on `step == 0` and is empty for a
negative `step` (so nothing is written and no error is raised);
positive steps chunk as the primary implementation does. -/
def x_write_batches (job_line : Line) (meta_lines : List Line)
    (groups : List (List Line)) (items_per_file : Int) (job_code : Line) :
    Except XErr (List (List Line)) :=
  if items_per_file = 0 then .error .RangeZeroStep
  else if items_per_file < 0 then .ok []
  else .ok ((batchChunks (items_per_file.toNat - 1) groups).map
      (renderChunk job_line meta_lines job_code))

/-- The variant's `main` (after reading the file): parse the header and
metadata, parse the items, extract the job code and write the batches.
The footer line returned by the parser is bound and then discarded —
the variant performs no footer validation of any kind. -/
def x_run_main (lines : List Line) (items_per_file : Int) :
    Except XErr (List (List Line)) :=
  match x_parse_header_and_meta lines with
  | .error e => .error e
  | .ok (job_line, meta_lines, idx) =>
    match xParseItems (lines.drop idx) idx with
    | .error e => .error e
    | .ok (groups, _footer) =>
      match x_extract_job_code job_line with
      | .error e => .error e
      | .ok job_code =>
        x_write_batches job_line meta_lines groups items_per_file job_code

/-! ## Specification-side definitions

`ValidItem` is the spec's item invariant (used to state and prove the
claims), `headIsMeta` phrases "zero metadata-tagged lines follow the
header", and the remaining definitions are the concrete inputs the claim
theorems and witnesses evaluate. -/

/-- The item invariant of the spec's data model: a correlation line,
then role/plan lines in any order with at least one of each kind. -/
def ValidItem (g : List Line) : Prop :=
  ∃ c body, g = c :: body ∧ isCorr c = true ∧
    (∀ l ∈ body, isRole l = true ∨ isPlan l = true) ∧
    1 ≤ (body.filter isRole).length ∧ 1 ≤ (body.filter isPlan).length

/-- Whether the first line after the header is metadata-tagged; the
claim's "zero metadata-tagged lines follow the header line" is
`headIsMeta rest = false`. -/
def headIsMeta : List Line → Bool
  | [] => false
  | l :: _ => isMeta l

/-- A minimal well-formed input file. -/
def sampleLines : List Line :=
  ["JOB|J1|x".toList, "META_A|y".toList, "CLNT_CORR|1".toList,
   "CLNT_ROLE|r1".toList, "PLAN|p1".toList, "FOOTER|J1|1".toList]

/-- The document `run_main` parses `sampleLines` into. -/
def sampleDoc : Document :=
  ⟨"JOB|J1|x".toList, ["META_A|y".toList],
   [["CLNT_CORR|1".toList, "CLNT_ROLE|r1".toList, "PLAN|p1".toList]],
   "J1".toList, false⟩

/-- An item sequence whose second item has zero role-tagged lines. -/
def exampleNoRole : List Line :=
  ["CLNT_CORR|1".toList, "CLNT_ROLE|r1".toList, "PLAN|p1".toList,
   "CLNT_CORR|2".toList, "PLAN|p2".toList, "FOOTER|J1|2".toList]

/-- A file whose footer job code differs from the header's. -/
def mismatchLines : List Line :=
  ["JOB|J1|x".toList, "META_A|y".toList, "CLNT_CORR|1".toList,
   "CLNT_ROLE|r1".toList, "PLAN|p1".toList, "FOOTER|J2|1".toList]

/-- A well-formed file with zero metadata lines after the header. -/
def noMetaLines : List Line :=
  ["JOB|A|x".toList, "CLNT_CORR|1".toList, "CLNT_ROLE|r".toList,
   "PLAN|p".toList, "FOOTER|A|1".toList]

/-- An item sequence whose single item has its plan line before its
role line. -/
def reorderLines : List Line :=
  ["CLNT_CORR|1".toList, "PLAN|p1".toList, "CLNT_ROLE|r1".toList,
   "FOOTER|J1|1".toList]

/-! ## Prefix, tag and field lemmas -/

lemma isPrefixOf_append (t u : Line) : t.isPrefixOf (t ++ u) = true := by
  induction t with
  | nil => simp [List.isPrefixOf]
  | cons c t ih => simp [List.isPrefixOf, ih]

lemma isPrefixOf_ex {t s : Line} : t.isPrefixOf s = true ↔ ∃ u, s = t ++ u := by
  constructor
  · intro h
    induction t generalizing s with
    | nil => exact ⟨s, rfl⟩
    | cons c t ih =>
      cases s with
      | nil => simp [List.isPrefixOf] at h
      | cons b s =>
        simp only [List.isPrefixOf, Bool.and_eq_true, beq_iff_eq] at h
        obtain ⟨rfl, h⟩ := h
        obtain ⟨u, rfl⟩ := ih h
        exact ⟨u, rfl⟩
  · rintro ⟨u, rfl⟩
    exact isPrefixOf_append t u

lemma startsWith_append (t u : Line) : startsWith (t ++ u) t = true :=
  isPrefixOf_append t u

/-- Two lists that are both prefixes of the same list are comparable. -/
lemma both_prefixes {t₁ t₂ s : Line} (h₁ : t₁.isPrefixOf s = true)
    (h₂ : t₂.isPrefixOf s = true) :
    t₁.isPrefixOf t₂ = true ∨ t₂.isPrefixOf t₁ = true := by
  induction s generalizing t₁ t₂ with
  | nil =>
    cases t₁ with
    | nil => exact Or.inl (by simp [List.isPrefixOf])
    | cons a t₁ => simp [List.isPrefixOf] at h₁
  | cons c s ih =>
    cases t₁ with
    | nil => exact Or.inl (by simp [List.isPrefixOf])
    | cons a t₁ =>
      cases t₂ with
      | nil => exact Or.inr rfl
      | cons b t₂ =>
        simp only [List.isPrefixOf, Bool.and_eq_true, beq_iff_eq] at h₁ h₂
        obtain ⟨rfl, h₁⟩ := h₁
        obtain ⟨rfl, h₂⟩ := h₂
        rcases ih h₁ h₂ with h | h
        · exact Or.inl (by simp [List.isPrefixOf, h])
        · exact Or.inr (by simp [List.isPrefixOf, h])

/-- Lines starting with one of two incomparable tags cannot start with the
other. -/
lemma startsWith_excl {t₁ t₂ : Line}
    (hne : (t₁.isPrefixOf t₂ || t₂.isPrefixOf t₁) = false) {s : Line}
    (h : startsWith s t₁ = true) : startsWith s t₂ = false := by
  by_contra hc
  rw [Bool.not_eq_false] at hc
  rcases both_prefixes h hc with hp | hp <;> simp [hp] at hne

lemma corr_not_footer {s : Line} (h : isCorr s = true) : isFooter s = false :=
  startsWith_excl (by decide) h

lemma corr_not_meta {s : Line} (h : isCorr s = true) : isMeta s = false :=
  startsWith_excl (by decide) h

lemma role_not_footer {s : Line} (h : isRole s = true) : isFooter s = false :=
  startsWith_excl (by decide) h

lemma role_not_corr {s : Line} (h : isRole s = true) : isCorr s = false :=
  startsWith_excl (by decide) h

lemma plan_not_footer {s : Line} (h : isPlan s = true) : isFooter s = false :=
  startsWith_excl (by decide) h

lemma plan_not_corr {s : Line} (h : isPlan s = true) : isCorr s = false :=
  startsWith_excl (by decide) h

lemma plan_not_role {s : Line} (h : isPlan s = true) : isRole s = false :=
  startsWith_excl (by decide) h

lemma role_not_plan {s : Line} (h : isRole s = true) : isPlan s = false :=
  startsWith_excl (by decide) h

lemma footer_not_meta {s : Line} (h : isFooter s = true) : isMeta s = false :=
  startsWith_excl (by decide) h

lemma splitPipe_ne_nil (l : Line) : splitPipe l ≠ [] := by
  cases l with
  | nil => simp [splitPipe]
  | cons c cs =>
    simp only [splitPipe]
    split
    · simp
    · split <;> simp_all

lemma splitPipe_no_pipe {a : Line} (h : '|' ∉ a) : splitPipe a = [a] := by
  induction a with
  | nil => rfl
  | cons c cs ih =>
    simp only [List.mem_cons, not_or] at h
    obtain ⟨hc, hcs⟩ := h
    simp only [splitPipe]
    rw [if_neg (by simpa using fun hh => hc hh.symm), ih hcs]

lemma splitPipe_sep {a : Line} (t : Line) (h : '|' ∉ a) :
    splitPipe (a ++ '|' :: t) = a :: splitPipe t := by
  induction a with
  | nil => simp [splitPipe]
  | cons c cs ih =>
    simp only [List.mem_cons, not_or] at h
    obtain ⟨hc, hcs⟩ := h
    simp only [List.cons_append, splitPipe, List.append_eq]
    rw [if_neg (by simpa using fun hh => hc hh.symm), ih hcs]

lemma splitPipe_fields_no_pipe {l : Line} {f : Line} (hf : f ∈ splitPipe l) :
    '|' ∉ f := by
  induction l generalizing f with
  | nil =>
    simp only [splitPipe, List.mem_singleton] at hf
    subst hf; simp
  | cons c cs ih =>
    simp only [splitPipe] at hf
    by_cases hc : c = '|'
    · rw [if_pos (by simp [hc])] at hf
      rcases List.mem_cons.mp hf with rfl | hf
      · simp
      · exact ih hf
    · rw [if_neg (by simpa using hc)] at hf
      rcases hsp : splitPipe cs with _ | ⟨f₀, rest⟩
      · exact absurd hsp (splitPipe_ne_nil cs)
      · rw [hsp] at hf
        rcases List.mem_cons.mp hf with rfl | hf
        · intro hmem
          rcases List.mem_cons.mp hmem with h | h
          · exact hc h.symm
          · exact ih (hsp ▸ List.mem_cons_self f₀ rest) h
        · exact ih (hsp ▸ List.mem_cons_of_mem f₀ hf)

lemma digitChar_spec : ∀ d, d < 10 →
    isDigitCh (digitChar d) = true ∧ digitVal (digitChar d) = d ∧
      isSpaceCh (digitChar d) = false ∧ digitChar d ≠ '|' ∧
      digitChar d ≠ '-' ∧ digitChar d ≠ '+' := by decide

lemma natRepr_ne_nil (n : Nat) : natRepr n ≠ [] := by
  rw [natRepr]
  split <;> simp

lemma natRepr_digits (n : Nat) : ∀ c ∈ natRepr n, isDigitCh c = true := by
  induction n using Nat.strong_induction_on with
  | _ n ih =>
    by_cases h : n < 10
    · rw [natRepr, if_pos h]
      intro c hc
      rw [List.mem_singleton] at hc
      subst hc
      exact (digitChar_spec n h).1
    · rw [natRepr, if_neg h]
      intro c hc
      rcases List.mem_append.mp hc with hc | hc
      · exact ih (n / 10) (Nat.div_lt_self (by omega) (by omega)) c hc
      · rw [List.mem_singleton] at hc
        subst hc
        exact (digitChar_spec (n % 10) (Nat.mod_lt n (by omega))).1

lemma natRepr_foldl (n : Nat) : ∀ a : Nat,
    (natRepr n).foldl digitsAccum a = a * 10 ^ (natRepr n).length + n := by
  induction n using Nat.strong_induction_on with
  | _ n ih =>
    intro a
    by_cases h : n < 10
    · rw [natRepr, if_pos h]
      simp [digitsAccum, (digitChar_spec n h).2.1]
    · rw [natRepr, if_neg h]
      have hlt : n / 10 < n := Nat.div_lt_self (by omega) (by omega)
      rw [List.foldl_append, ih (n / 10) hlt a, List.length_append]
      simp only [List.foldl_cons, List.foldl_nil, List.length_append,
        List.length_cons, List.length_nil, digitsAccum,
        (digitChar_spec (n % 10) (Nat.mod_lt n (by omega))).2.1]
      have hmod : 10 * (n / 10) + n % 10 = n := Nat.div_add_mod n 10
      rw [pow_succ]
      ring_nf
      omega

lemma digitsToNat_natRepr (n : Nat) : digitsToNat (natRepr n) = some n := by
  have hne : natRepr n ≠ [] := natRepr_ne_nil n
  have hall : (natRepr n).all isDigitCh = true :=
    List.all_eq_true.mpr (natRepr_digits n)
  rw [digitsToNat, if_pos (by simp [hall, List.isEmpty_iff, hne])]
  rw [natRepr_foldl n 0]
  simp

lemma digit_not_space {c : Char} (h : isDigitCh c = true) :
    isSpaceCh c = false := by
  by_contra hcon
  rw [Bool.not_eq_false] at hcon
  simp only [isSpaceCh, Bool.or_eq_true, beq_iff_eq] at hcon
  rcases hcon with ((((h₁ | h₁) | h₁) | h₁) | h₁) | h₁ <;> subst h₁ <;>
    revert h <;> decide

lemma natRepr_no_space (n : Nat) : ∀ c ∈ natRepr n, isSpaceCh c = false :=
  fun c hc => digit_not_space (natRepr_digits n c hc)

lemma natRepr_no_pipe (n : Nat) : '|' ∉ natRepr n := by
  intro hc
  have hd := natRepr_digits n _ hc
  simp [isDigitCh] at hd

lemma dropWhile_all_false {p : Char → Bool} {s : Line}
    (h : ∀ c ∈ s, p c = false) : s.dropWhile p = s := by
  cases s with
  | nil => rfl
  | cons c t =>
    rw [List.dropWhile_cons, if_neg]
    simp [h c (List.mem_cons_self c t)]

lemma trimWs_eq_self {s : Line} (h : ∀ c ∈ s, isSpaceCh c = false) :
    trimWs s = s := by
  rw [trimWs, dropWhile_all_false h, dropWhile_all_false, List.reverse_reverse]
  intro c hc
  exact h c (List.mem_reverse.mp hc)

lemma parseInt_natRepr (n : Nat) : parseInt (natRepr n) = some (n : Int) := by
  rw [parseInt]
  rcases hrepr : natRepr n with _ | ⟨c, rest⟩
  · exact absurd hrepr (natRepr_ne_nil n)
  · have hd : isDigitCh c = true := by
      have := natRepr_digits n c
      rw [hrepr] at this
      exact this (List.mem_cons_self c rest)
    have hdign : (c == '-') = false ∧ (c == '+') = false := by
      constructor <;>
        · simp only [beq_eq_false_iff_ne, ne_eq]
          intro hcc
          subst hcc
          revert hd
          decide
    have htrim : trimWs (natRepr n) = natRepr n :=
      trimWs_eq_self (natRepr_no_space n)
    rw [hrepr] at htrim
    rw [htrim, parseSigned, hdign.1, hdign.2]
    simp only [Bool.false_eq_true, if_false]
    rw [← hrepr, digitsToNat_natRepr]
    rfl

/-! ## Parser correctness lemmas -/

lemma parseBody_ok {ls : List Line} {i : Nat} {body : List Line} {r p : Nat}
    (h : parseBody ls i = .ok (body, r, p)) :
    (∃ rest, ls = body ++ rest) ∧
    (∀ l ∈ body, isRole l = true ∨ isPlan l = true) ∧
    r = (body.filter isRole).length ∧ p = (body.filter isPlan).length := by
  induction ls generalizing i body r p with
  | nil =>
    rw [parseBody] at h
    simp only [Except.ok.injEq, Prod.mk.injEq] at h
    obtain ⟨rfl, rfl, rfl⟩ := h
    exact ⟨⟨[], rfl⟩, by simp, rfl, rfl⟩
  | cons l ls ih =>
    rw [parseBody] at h
    by_cases hstop : (isFooter l || isCorr l) = true
    · rw [if_pos hstop] at h
      simp only [Except.ok.injEq, Prod.mk.injEq] at h
      obtain ⟨rfl, rfl, rfl⟩ := h
      exact ⟨⟨l :: ls, rfl⟩, by simp, rfl, rfl⟩
    · rw [if_neg hstop] at h
      by_cases hrole : isRole l = true
      · rw [if_pos hrole] at h
        rcases hb : parseBody ls (i + 1) with e | ⟨b, r', p'⟩
        · rw [hb] at h; exact absurd h (by simp)
        · rw [hb] at h
          simp only [Except.ok.injEq, Prod.mk.injEq] at h
          obtain ⟨rfl, rfl, rfl⟩ := h
          obtain ⟨⟨rest, hrest⟩, hmem, hr, hp⟩ := ih hb
          refine ⟨⟨rest, by rw [List.cons_append, ← hrest]⟩, ?_, ?_, ?_⟩
          · intro x hx
            rcases List.mem_cons.mp hx with rfl | hx
            · exact Or.inl hrole
            · exact hmem x hx
          · rw [List.filter_cons, if_pos hrole, List.length_cons, hr]
          · rw [List.filter_cons, if_neg (by simp [role_not_plan hrole]), hp]
      · rw [if_neg hrole] at h
        by_cases hplan : isPlan l = true
        · rw [if_pos hplan] at h
          rcases hb : parseBody ls (i + 1) with e | ⟨b, r', p'⟩
          · rw [hb] at h; exact absurd h (by simp)
          · rw [hb] at h
            simp only [Except.ok.injEq, Prod.mk.injEq] at h
            obtain ⟨rfl, rfl, rfl⟩ := h
            obtain ⟨⟨rest, hrest⟩, hmem, hr, hp⟩ := ih hb
            refine ⟨⟨rest, by rw [List.cons_append, ← hrest]⟩, ?_, ?_, ?_⟩
            · intro x hx
              rcases List.mem_cons.mp hx with rfl | hx
              · exact Or.inr hplan
              · exact hmem x hx
            · rw [List.filter_cons,
                if_neg (by simp [plan_not_role hplan]), hr]
            · rw [List.filter_cons, if_pos hplan, List.length_cons, hp]
        · rw [if_neg hplan] at h
          exact absurd h (by simp)

lemma parseBody_err {ls : List Line} {i : Nat} {e : Err}
    (h : parseBody ls i = .error e) : ∃ n l, e = .UnexpectedLine n l := by
  induction ls generalizing i e with
  | nil => rw [parseBody] at h; exact absurd h (by simp)
  | cons l ls ih =>
    rw [parseBody] at h
    by_cases hstop : (isFooter l || isCorr l) = true
    · rw [if_pos hstop] at h; exact absurd h (by simp)
    · rw [if_neg hstop] at h
      by_cases hrole : isRole l = true
      · rw [if_pos hrole] at h
        rcases hb : parseBody ls (i + 1) with e' | ⟨b, r', p'⟩
        · rw [hb] at h
          simp only [Except.error.injEq] at h
          exact h ▸ ih hb
        · rw [hb] at h; exact absurd h (by simp)
      · rw [if_neg hrole] at h
        by_cases hplan : isPlan l = true
        · rw [if_pos hplan] at h
          rcases hb : parseBody ls (i + 1) with e' | ⟨b, r', p'⟩
          · rw [hb] at h
            simp only [Except.error.injEq] at h
            exact h ▸ ih hb
          · rw [hb] at h; exact absurd h (by simp)
        · rw [if_neg hplan] at h
          simp only [Except.error.injEq] at h
          exact ⟨i + 1, l, h.symm⟩

lemma parseBody_build {body : List Line} (next : List Line) (i : Nat)
    (hb : ∀ l ∈ body, isRole l = true ∨ isPlan l = true)
    (hn : next = [] ∨ ∃ h₀ t, next = h₀ :: t ∧ (isFooter h₀ || isCorr h₀) = true) :
    parseBody (body ++ next) i =
      .ok (body, (body.filter isRole).length, (body.filter isPlan).length) := by
  induction body generalizing i with
  | nil =>
    rcases hn with rfl | ⟨h₀, t, rfl, hh⟩
    · rfl
    · rw [List.nil_append, parseBody, if_pos hh]
      simp
  | cons l body ih =>
    rcases hb l (List.mem_cons_self l body) with hr | hp
    · have hstop : (isFooter l || isCorr l) = false := by
        simp [role_not_footer hr, role_not_corr hr]
      rw [List.cons_append, parseBody, if_neg (by simp [hstop]), if_pos hr,
        ih (i + 1) (fun x hx => hb x (List.mem_cons_of_mem l hx))]
      simp [List.filter_cons, hr, role_not_plan hr]
    · have hstop : (isFooter l || isCorr l) = false := by
        simp [plan_not_footer hp, plan_not_corr hp]
      rw [List.cons_append, parseBody, if_neg (by simp [hstop]),
        if_neg (by simp [plan_not_role hp]), if_pos hp,
        ih (i + 1) (fun x hx => hb x (List.mem_cons_of_mem l hx))]
      simp [List.filter_cons, hp, plan_not_role hp]

lemma validItem_no_footer {gs : List (List Line)}
    (h : ∀ g ∈ gs, ValidItem g) : ∀ l ∈ gs.flatten, isFooter l = false := by
  intro l hl
  obtain ⟨g, hg, hlg⟩ := List.mem_flatten.mp hl
  obtain ⟨c, body, rfl, hcorr, hmem, -, -⟩ := h g hg
  rcases List.mem_cons.mp hlg with rfl | hlg
  · exact corr_not_footer hcorr
  · rcases hmem l hlg with hr | hp
    · exact role_not_footer hr
    · exact plan_not_footer hp

lemma flatten_head_corr {items : List (List Line)}
    (h : ∀ g ∈ items, ValidItem g) :
    items.flatten = [] ∨
      ∃ h₀ t, items.flatten = h₀ :: t ∧ isCorr h₀ = true := by
  cases items with
  | nil => exact Or.inl rfl
  | cons g items =>
    obtain ⟨c, body, rfl, hcorr, -, -, -⟩ := h g (List.mem_cons_self g items)
    exact Or.inr ⟨c, body ++ items.flatten, by simp, hcorr⟩

lemma parseItemsF_ok {fuel : Nat} : ∀ {ls : List Line} {i : Nat}
    {gs : List (List Line)} {f : Line},
    parseItemsF fuel ls i = .ok (gs, f) →
    isFooter f = true ∧ (∃ rest, ls = gs.flatten ++ f :: rest) ∧
      ∀ g ∈ gs, ValidItem g := by
  induction fuel with
  | zero =>
    intro ls i gs f h
    cases ls with
    | nil => rw [parseItemsF] at h; exact absurd h (by simp)
    | cons l ls => rw [parseItemsF] at h; exact absurd h (by simp)
  | succ fuel ih =>
    intro ls i gs f h
    cases ls with
    | nil => rw [parseItemsF] at h; exact absurd h (by simp)
    | cons l ls =>
      rw [parseItemsF] at h
      by_cases hfoot : isFooter l = true
      · rw [if_pos hfoot] at h
        simp only [Except.ok.injEq, Prod.mk.injEq] at h
        obtain ⟨rfl, rfl⟩ := h
        exact ⟨hfoot, ⟨ls, by simp⟩, by simp⟩
      · rw [if_neg hfoot] at h
        by_cases hcorr : isCorr l = true
        · rw [if_neg (by simp [hcorr])] at h
          rcases hb : parseBody ls (i + 1) with e | ⟨body, r, p⟩
          · rw [hb] at h; exact absurd h (by simp)
          · rw [hb] at h
            dsimp only at h
            obtain ⟨⟨rest₀, hrest₀⟩, hmem, hr, hp⟩ := parseBody_ok hb
            by_cases hzero : r = 0 ∨ p = 0
            · rw [if_pos hzero] at h; exact absurd h (by simp)
            · rw [if_neg hzero] at h
              rcases hrec : parseItemsF fuel (ls.drop body.length)
                  (i + 1 + body.length) with e | ⟨gs', f'⟩
              · rw [hrec] at h; exact absurd h (by simp)
              · rw [hrec] at h
                simp only [Except.ok.injEq, Prod.mk.injEq] at h
                obtain ⟨rfl, rfl⟩ := h
                have hdrop : ls.drop body.length = rest₀ := by
                  rw [hrest₀, List.drop_left]
                rw [hdrop] at hrec
                obtain ⟨hf', ⟨rest, hrest⟩, hvalid⟩ := ih hrec
                push_neg at hzero
                refine ⟨hf', ⟨rest, ?_⟩, ?_⟩
                · rw [hrest₀, hrest]
                  simp
                · intro g hg
                  rcases List.mem_cons.mp hg with rfl | hg
                  · exact ⟨l, body, rfl, hcorr, hmem, by omega, by omega⟩
                  · exact hvalid g hg
        · rw [if_pos (show isCorr l = false by simpa using hcorr)] at h
          exact absurd h (by simp)

lemma parseItemsF_build : ∀ (items : List (List Line)),
    (∀ g ∈ items, ValidItem g) → ∀ {fuel : Nat} (f : Line) (rest : List Line)
    (i : Nat), (items.flatten ++ f :: rest).length ≤ fuel →
    isFooter f = true →
    parseItemsF fuel (items.flatten ++ f :: rest) i = .ok (items, f) := by
  intro items
  induction items with
  | nil =>
    intro _hv fuel f rest i hfuel hf
    rw [List.flatten_nil, List.nil_append]
    cases fuel with
    | zero => simp at hfuel
    | succ fuel => rw [parseItemsF, if_pos hf]
  | cons g items ih =>
    intro hvalid fuel f rest i hfuel hf
    obtain ⟨c, body, rfl, hcorr, hmem, hrole, hplan⟩ :=
      hvalid g (List.mem_cons_self g items)
    have hitems : ∀ g ∈ items, ValidItem g :=
      fun g hg => hvalid g (List.mem_cons_of_mem _ hg)
    have hshape : items.flatten ++ f :: rest = [] ∨
        ∃ h₀ t, items.flatten ++ f :: rest = h₀ :: t ∧
          (isFooter h₀ || isCorr h₀) = true := by
      rcases flatten_head_corr hitems with hnil | ⟨h₀, t, heq, hc⟩
      · exact Or.inr ⟨f, rest, by rw [hnil, List.nil_append], by simp [hf]⟩
      · exact Or.inr ⟨h₀, t ++ f :: rest, by rw [heq, List.cons_append],
          by simp [hc]⟩
    have hflat : ((c :: body) :: items).flatten ++ f :: rest =
        c :: (body ++ (items.flatten ++ f :: rest)) := by simp
    rw [hflat]
    rw [hflat, List.length_cons] at hfuel
    cases fuel with
    | zero => omega
    | succ fuel =>
      rw [parseItemsF, if_neg (by simp [corr_not_footer hcorr]),
        if_neg (by simp [hcorr]), parseBody_build _ (i + 1) hmem hshape]
      dsimp only
      rw [if_neg (by omega), List.drop_left,
        ih hitems f rest (i + 1 + body.length) (by simp at hfuel ⊢; omega) hf]

lemma parseItemsF_nofooter : ∀ (items : List (List Line)),
    (∀ g ∈ items, ValidItem g) → ∀ {fuel : Nat} (i : Nat),
    items.flatten.length ≤ fuel →
    parseItemsF fuel items.flatten i = .error .MissingFooter := by
  intro items
  induction items with
  | nil =>
    intro _hv fuel i _hfuel
    rw [List.flatten_nil]
    cases fuel with
    | zero => rfl
    | succ fuel => rfl
  | cons g items ih =>
    intro hvalid fuel i hfuel
    obtain ⟨c, body, rfl, hcorr, hmem, hrole, hplan⟩ :=
      hvalid g (List.mem_cons_self g items)
    have hitems : ∀ g ∈ items, ValidItem g :=
      fun g hg => hvalid g (List.mem_cons_of_mem _ hg)
    have hshape : items.flatten = [] ∨
        ∃ h₀ t, items.flatten = h₀ :: t ∧ (isFooter h₀ || isCorr h₀) = true := by
      rcases flatten_head_corr hitems with hnil | ⟨h₀, t, heq, hc⟩
      · exact Or.inl hnil
      · exact Or.inr ⟨h₀, t, heq, by simp [hc]⟩
    have hflat : ((c :: body) :: items).flatten =
        c :: (body ++ items.flatten) := by simp
    rw [hflat]
    rw [hflat, List.length_cons] at hfuel
    cases fuel with
    | zero => omega
    | succ fuel =>
      rw [parseItemsF, if_neg (by simp [corr_not_footer hcorr]),
        if_neg (by simp [hcorr]), parseBody_build _ (i + 1) hmem hshape]
      dsimp only
      rw [if_neg (by omega), List.drop_left,
        ih hitems (i + 1 + body.length) (by simp at hfuel ⊢; omega)]

lemma parseItemsF_incomplete {fuel : Nat} : ∀ {ls : List Line} {i : Nat}
    {c : Line} {r p : Nat},
    parseItemsF fuel ls i = .error (.IncompleteItem c r p) →
    (r = 0 ∨ p = 0) ∧ isCorr c = true ∧ c ∈ ls := by
  induction fuel with
  | zero =>
    intro ls i c r p h
    cases ls with
    | nil => rw [parseItemsF] at h; exact absurd h (by simp)
    | cons l ls => rw [parseItemsF] at h; exact absurd h (by simp)
  | succ fuel ih =>
    intro ls i c r p h
    cases ls with
    | nil => rw [parseItemsF] at h; exact absurd h (by simp)
    | cons l ls =>
      rw [parseItemsF] at h
      by_cases hfoot : isFooter l = true
      · rw [if_pos hfoot] at h; exact absurd h (by simp)
      · rw [if_neg hfoot] at h
        by_cases hcorr : isCorr l = true
        · rw [if_neg (by simp [hcorr])] at h
          rcases hb : parseBody ls (i + 1) with e | ⟨body, r', p'⟩
          · rw [hb] at h
            simp only [Except.error.injEq] at h
            obtain ⟨n, x, rfl⟩ := parseBody_err hb
            exact absurd h.symm (by simp)
          · rw [hb] at h
            dsimp only at h
            obtain ⟨⟨rest₀, hrest₀⟩, hmem, hr, hp⟩ := parseBody_ok hb
            by_cases hzero : r' = 0 ∨ p' = 0
            · rw [if_pos hzero] at h
              simp only [Except.error.injEq, Err.IncompleteItem.injEq] at h
              obtain ⟨rfl, rfl, rfl⟩ := h
              exact ⟨hzero, hcorr, List.mem_cons_self l ls⟩
            · rw [if_neg hzero] at h
              rcases hrec : parseItemsF fuel (ls.drop body.length)
                  (i + 1 + body.length) with e | ⟨gs', f'⟩
              · rw [hrec] at h
                simp only [Except.error.injEq] at h
                subst h
                obtain ⟨hz, hc, hmemc⟩ := ih hrec
                exact ⟨hz, hc,
                  List.mem_cons_of_mem l (List.mem_of_mem_drop hmemc)⟩
              · rw [hrec] at h; exact absurd h (by simp)
        · rw [if_pos (show isCorr l = false by simpa using hcorr)] at h
          exact absurd h (by simp)

lemma xParseItems_ok : ∀ (n : Nat) {ls : List Line} {i : Nat}
    {gs : List (List Line)} {f : Line}, ls.length ≤ n →
    xParseItems ls i = .ok (gs, f) →
    isFooter f = true ∧ ∀ g ∈ gs, ∃ c r p, g = [c, r, p] ∧
      isCorr c = true ∧ isRole r = true ∧ isPlan p = true := by
  intro n
  induction n with
  | zero =>
    intro ls i gs f hlen h
    obtain rfl : ls = [] := List.length_eq_zero.mp (by omega)
    rw [xParseItems.eq_def] at h
    exact absurd h (by simp)
  | succ n ih =>
    intro ls i gs f hlen h
    cases ls with
    | nil =>
      rw [xParseItems.eq_def] at h
      exact absurd h (by simp)
    | cons l ls₁ =>
      rw [xParseItems.eq_def] at h
      dsimp only at h
      by_cases hf : isFooter l = true
      · rw [if_pos hf] at h
        simp only [Except.ok.injEq, Prod.mk.injEq] at h
        obtain ⟨rfl, rfl⟩ := h
        exact ⟨hf, by simp⟩
      · rw [if_neg hf] at h
        by_cases hc : isCorr l = true
        · rw [if_neg (by simp [hc])] at h
          cases ls₁ with
          | nil => exact absurd h (by simp)
          | cons r ls₂ =>
            dsimp only at h
            by_cases hr : isRole r = true
            · rw [if_neg (by simp [hr])] at h
              cases ls₂ with
              | nil => exact absurd h (by simp)
              | cons p ls₃ =>
                dsimp only at h
                by_cases hp : isPlan p = true
                · rw [if_neg (by simp [hp])] at h
                  rcases hrec : xParseItems ls₃ (i + 3) with e | ⟨gs', f'⟩
                  · rw [hrec] at h; exact absurd h (by simp)
                  · rw [hrec] at h
                    simp only [Except.ok.injEq, Prod.mk.injEq] at h
                    obtain ⟨rfl, rfl⟩ := h
                    obtain ⟨hf', hsh⟩ := ih (by simp at hlen ⊢; omega) hrec
                    refine ⟨hf', ?_⟩
                    intro g hg
                    rcases List.mem_cons.mp hg with rfl | hg
                    · exact ⟨l, r, p, rfl, hc, hr, hp⟩
                    · exact hsh g hg
                · rw [if_pos (by simpa using hp)] at h
                  exact absurd h (by simp)
            · rw [if_pos (by simpa using hr)] at h
              exact absurd h (by simp)
        · rw [if_pos (by simpa using hc)] at h
          exact absurd h (by simp)

/-! ## Batch-writer lemmas -/

lemma chunksF_nil (b fuel : Nat) : chunksF b fuel [] = [] := by
  cases fuel <;> rfl

lemma chunksF_flatten (b : Nat) : ∀ {fuel : Nat} {l : List (List Line)},
    l.length ≤ fuel → (chunksF b fuel l).flatten = l := by
  intro fuel
  induction fuel with
  | zero =>
    intro l h
    obtain rfl : l = [] := List.length_eq_zero.mp (by omega)
    rw [chunksF_nil, List.flatten_nil]
  | succ fuel ih =>
    intro l h
    cases l with
    | nil => rfl
    | cons x xs =>
      rw [chunksF, List.flatten_cons,
        ih (by rw [List.length_drop]; simp at h; omega), List.take_succ_cons,
        List.cons_append, List.take_append_drop]

lemma chunksF_length (b : Nat) : ∀ {fuel : Nat} {l : List (List Line)},
    l.length ≤ fuel →
    (chunksF b fuel l).length = (l.length + b) / (b + 1) := by
  intro fuel
  induction fuel with
  | zero =>
    intro l h
    obtain rfl : l = [] := List.length_eq_zero.mp (by omega)
    rw [chunksF_nil]
    simp [Nat.div_eq_of_lt]
  | succ fuel ih =>
    intro l h
    cases l with
    | nil => simp [chunksF_nil, Nat.div_eq_of_lt]
    | cons x xs =>
      rw [chunksF, List.length_cons,
        ih (by rw [List.length_drop]; simp at h; omega), List.length_drop,
        List.length_cons]
      have hr : xs.length + 1 + b = xs.length + (b + 1) := by omega
      rw [hr, Nat.add_div_right _ (by omega)]
      by_cases hb : b ≤ xs.length
      · have : xs.length - b + b = xs.length := by omega
        rw [this]
      · have h1 : xs.length - b + b = b := by omega
        have h2 : xs.length / (b + 1) = 0 := Nat.div_eq_of_lt (by omega)
        have h3 : b / (b + 1) = 0 := Nat.div_eq_of_lt (by omega)
        rw [h1, h2, h3]

lemma chunksF_dropLast (b : Nat) : ∀ {fuel : Nat} {l : List (List Line)},
    l.length ≤ fuel →
    ∀ c ∈ (chunksF b fuel l).dropLast, c.length = b + 1 := by
  intro fuel
  induction fuel with
  | zero =>
    intro l h c hc
    obtain rfl : l = [] := List.length_eq_zero.mp (by omega)
    rw [chunksF_nil] at hc
    simp at hc
  | succ fuel ih =>
    intro l h c hc
    cases l with
    | nil => rw [chunksF_nil] at hc; simp at hc
    | cons x xs =>
      rw [chunksF] at hc
      rcases hrest : chunksF b fuel (xs.drop b) with _ | ⟨r, rs⟩
      · rw [hrest] at hc
        simp at hc
      · rw [hrest] at hc
        have hdrop : ¬ xs.drop b = [] := by
          intro hd
          rw [hd, chunksF_nil] at hrest
          exact absurd hrest (by simp)
        have hblt : b < xs.length := by
          by_contra hcon
          exact hdrop (List.drop_eq_nil_of_le (by omega))
        have hdl : (List.take (b + 1) (x :: xs) :: r :: rs).dropLast =
            List.take (b + 1) (x :: xs) :: (r :: rs).dropLast := rfl
        rw [hdl] at hc
        rcases List.mem_cons.mp hc with rfl | hcr
        · rw [List.length_take, List.length_cons]
          omega
        · exact ih (l := xs.drop b) (by rw [List.length_drop]; simp at h; omega)
            c (by rw [hrest]; exact hcr)

lemma chunksF_getLast (b : Nat) : ∀ {fuel : Nat} {l : List (List Line)},
    l.length ≤ fuel → ∀ c, (chunksF b fuel l).getLast? = some c →
    c.length = if l.length % (b + 1) = 0 then b + 1 else l.length % (b + 1) := by
  intro fuel
  induction fuel with
  | zero =>
    intro l h c hc
    obtain rfl : l = [] := List.length_eq_zero.mp (by omega)
    rw [chunksF_nil] at hc
    simp at hc
  | succ fuel ih =>
    intro l h c hc
    cases l with
    | nil => rw [chunksF_nil] at hc; simp at hc
    | cons x xs =>
      rw [chunksF] at hc
      rcases hrest : chunksF b fuel (xs.drop b) with _ | ⟨r, rs⟩
      · rw [hrest] at hc
        simp only [List.getLast?_singleton, Option.some.injEq] at hc
        subst hc
        have hxs : xs.length ≤ b := by
          by_contra hcon
          have : chunksF b fuel (xs.drop b) ≠ [] := by
            rcases hd : xs.drop b with _ | ⟨y, ys⟩
            · exact absurd (List.drop_eq_nil_iff.mp hd) (by omega)
            · have hfl : (xs.drop b).length ≤ fuel := by
                rw [List.length_drop]; simp at h; omega
              rw [hd] at hfl
              cases fuel with
              | zero => simp at hfl
              | succ fuel => rw [chunksF]; simp
          exact this hrest
        by_cases hnb : xs.length = b
        · rw [List.length_cons, hnb, Nat.mod_self, if_pos rfl,
            List.length_take, List.length_cons, hnb]
          omega
        · have hlt : xs.length + 1 < b + 1 := by omega
          rw [List.length_cons, Nat.mod_eq_of_lt hlt, if_neg (by omega),
            List.length_take, List.length_cons]
          omega
      · rw [hrest] at hc
        rw [List.getLast?_cons_cons] at hc
        have hdrop : ¬ xs.drop b = [] := by
          intro hd
          rw [hd, chunksF_nil] at hrest
          exact absurd hrest (by simp)
        have hblt : b < xs.length := by
          by_contra hcon
          exact hdrop (List.drop_eq_nil_of_le (by omega))
        have hres := ih (l := xs.drop b)
          (by rw [List.length_drop]; simp at h; omega) c
          (by rw [hrest]; exact hc)
        rw [List.length_drop] at hres
        have hm : xs.length + 1 = (xs.length - b) + (b + 1) := by omega
        rw [List.length_cons, hm, Nat.add_mod_right]
        exact hres

lemma chunksF_getD (b : Nat) : ∀ {fuel : Nat} {l : List (List Line)} (k : Nat),
    l.length ≤ fuel →
    (chunksF b fuel l).getD k [] = (l.drop (k * (b + 1))).take (b + 1) := by
  intro fuel
  induction fuel with
  | zero =>
    intro l k h
    obtain rfl : l = [] := List.length_eq_zero.mp (by omega)
    rw [chunksF_nil]
    simp
  | succ fuel ih =>
    intro l k h
    cases l with
    | nil => rw [chunksF_nil]; simp
    | cons x xs =>
      rw [chunksF]
      cases k with
      | zero => rw [List.getD_cons_zero, Nat.zero_mul, List.drop_zero]
      | succ k =>
        rw [List.getD_cons_succ,
          ih k (by rw [List.length_drop]; simp at h; omega), List.drop_drop]
        have hm : (k + 1) * (b + 1) = (b + k * (b + 1)) + 1 := by ring
        rw [hm, List.drop_succ_cons]

lemma chunksF_singleton (b : Nat) {fuel : Nat} {l : List (List Line)}
    (hfuel : l.length ≤ fuel) (h1 : 1 ≤ l.length) (h2 : l.length ≤ b) :
    chunksF b fuel l = [l] := by
  cases l with
  | nil => simp at h1
  | cons x xs =>
    cases fuel with
    | zero => simp at hfuel
    | succ fuel =>
      rw [chunksF, List.drop_eq_nil_of_le (by simp at h2; omega), chunksF_nil,
        List.take_of_length_le (by simp at h2 ⊢; omega)]

/-! ## Pipeline lemmas -/

lemma takeWhile_append_all {p : Line → Bool} {l₁ l₂ : List Line}
    (h : ∀ x ∈ l₁, p x = true)
    (h₂ : l₂ = [] ∨ ∃ h₀ t, l₂ = h₀ :: t ∧ p h₀ = false) :
    (l₁ ++ l₂).takeWhile p = l₁ := by
  induction l₁ with
  | nil =>
    rcases h₂ with rfl | ⟨h₀, t, rfl, hph⟩
    · rfl
    · simp [List.takeWhile_cons, hph]
  | cons a l ih =>
    rw [List.cons_append, List.takeWhile_cons,
      if_pos (h a (List.mem_cons_self a l)),
      ih (fun x hx => h x (List.mem_cons_of_mem a hx))]

lemma parse_header_and_meta_ok {lines : List Line} {job : Line}
    {meta : List Line} {i : Nat}
    (h : parse_header_and_meta lines = .ok (job, meta, i)) :
    ∃ rest, lines = job :: rest ∧ isJob job = true ∧
      meta = rest.takeWhile isMeta ∧ meta ≠ [] ∧ i = 1 + meta.length := by
  cases lines with
  | nil => exact absurd h (by simp [parse_header_and_meta])
  | cons job' rest =>
    simp only [parse_header_and_meta] at h
    by_cases hj : isJob job' = false
    · rw [if_pos hj] at h; exact absurd h (by simp)
    · rw [if_neg hj] at h
      by_cases hm : rest.takeWhile isMeta = []
      · rw [if_pos hm] at h; exact absurd h (by simp)
      · rw [if_neg hm] at h
        simp only [Except.ok.injEq, Prod.mk.injEq] at h
        obtain ⟨rfl, rfl, rfl⟩ := h
        exact ⟨rest, rfl, by simpa using hj, rfl, hm, rfl⟩

lemma parse_header_and_meta_build {job : Line} {meta rest : List Line}
    (hj : isJob job = true) (hm : meta ≠ [])
    (hall : ∀ m ∈ meta, isMeta m = true)
    (hhead : rest = [] ∨ ∃ h₀ t, rest = h₀ :: t ∧ isMeta h₀ = false) :
    parse_header_and_meta (job :: (meta ++ rest)) =
      .ok (job, meta, 1 + meta.length) := by
  simp only [parse_header_and_meta]
  rw [takeWhile_append_all hall hhead, if_neg (by simp [hj]), if_neg hm]

lemma extract_job_code_of_isJob {s : Line} (h : isJob s = true) :
    2 ≤ (splitPipe s).length ∧
      extract_job_code s = .ok ((splitPipe s).getD 1 []) ∧
      x_extract_job_code s = .ok ((splitPipe s).getD 1 []) := by
  obtain ⟨u, rfl⟩ := isPrefixOf_ex.mp h
  have hsp : splitPipe (jobTag ++ u) = ['J', 'O', 'B'] :: splitPipe u := by
    have hshape : jobTag ++ u = ['J', 'O', 'B'] ++ '|' :: u := rfl
    rw [hshape, splitPipe_sep u (by decide)]
  rcases hu : splitPipe u with _ | ⟨f₁, r₁⟩
  · exact absurd hu (splitPipe_ne_nil u)
  · rw [hu] at hsp
    refine ⟨by rw [hsp]; simp, ?_, ?_⟩
    · simp only [extract_job_code, hsp]
      rfl
    · simp only [x_extract_job_code, hsp]
      rfl

lemma extract_job_code_no_pipe {s jc : Line}
    (h : extract_job_code s = .ok jc) : '|' ∉ jc := by
  rcases hsp : splitPipe s with _ | ⟨p₀, _ | ⟨p₁, rest⟩⟩ <;>
    simp only [extract_job_code, hsp] at h
  · exact absurd h (by simp)
  · exact absurd h (by simp)
  · simp only [Except.ok.injEq] at h
    subst h
    exact splitPipe_fields_no_pipe
      (hsp ▸ List.mem_cons_of_mem p₀ (List.mem_cons_self _ rest))

lemma footerRender_isFooter (jc : Line) (n : Nat) :
    isFooter (footerRender jc n) = true := by
  rw [isFooter, footerRender]
  exact startsWith_append footerTag _

lemma validate_footer_render {jc : Line} (hpipe : '|' ∉ jc) (n : Nat) :
    validate_footer (footerRender jc n) jc n = .ok false := by
  have hsp : splitPipe (footerRender jc n) =
      [['F', 'O', 'O', 'T', 'E', 'R'], jc, natRepr n] := by
    have hshape : footerRender jc n =
        ['F', 'O', 'O', 'T', 'E', 'R'] ++ '|' :: (jc ++ '|' :: natRepr n) := by
      simp [footerRender, footerTag]
    rw [hshape, splitPipe_sep _ (by decide), splitPipe_sep _ hpipe,
      splitPipe_no_pipe (natRepr_no_pipe n)]
  simp only [validate_footer, hsp]
  rw [if_neg (by simp), parseInt_natRepr]
  simp

lemma run_main_ok {lines : List Line} {d : Document}
    (h : run_main lines = .ok d) :
    ∃ i f, parse_header_and_meta lines = .ok (d.job_line, d.meta_lines, i) ∧
      parse_groups_and_footer lines i = .ok (d.groups, f) ∧
      extract_job_code d.job_line = .ok d.job_code ∧
      validate_footer f d.job_code d.groups.length = .ok d.warn := by
  rw [run_main] at h
  rcases h₁ : parse_header_and_meta lines with e | ⟨job, meta, i⟩
  · rw [h₁] at h; exact absurd h (by simp)
  · rw [h₁] at h
    dsimp only at h
    rcases h₂ : parse_groups_and_footer lines i with e | ⟨groups, f⟩
    · rw [h₂] at h; exact absurd h (by simp)
    · rw [h₂] at h
      dsimp only at h
      rcases h₃ : extract_job_code job with e | jc
      · rw [h₃] at h; exact absurd h (by simp)
      · rw [h₃] at h
        dsimp only at h
        rcases h₄ : validate_footer f jc groups.length with e | warn
        · rw [h₄] at h; exact absurd h (by simp)
        · rw [h₄] at h
          dsimp only at h
          simp only [Except.ok.injEq] at h
          subst h
          exact ⟨i, f, rfl, h₂, h₃, h₄⟩

lemma run_main_render {job jc : Line} {meta : List Line}
    {chunk : List (List Line)}
    (hj : isJob job = true) (hm : meta ≠ [])
    (hall : ∀ m ∈ meta, isMeta m = true)
    (hjc : extract_job_code job = .ok jc)
    (hchunk : ∀ g ∈ chunk, ValidItem g) :
    run_main (renderChunk job meta jc chunk) =
      .ok ⟨job, meta, chunk, jc, false⟩ := by
  have hfr : isFooter (footerRender jc chunk.length) = true :=
    footerRender_isFooter jc chunk.length
  have hhead : chunk.flatten ++ [footerRender jc chunk.length] = [] ∨
      ∃ h₀ t, chunk.flatten ++ [footerRender jc chunk.length] = h₀ :: t ∧
        isMeta h₀ = false := by
    rcases flatten_head_corr hchunk with hnil | ⟨h₀, t, heq, hc⟩
    · exact Or.inr ⟨footerRender jc chunk.length, [],
        by rw [hnil, List.nil_append], footer_not_meta hfr⟩
    · exact Or.inr ⟨h₀, t ++ [footerRender jc chunk.length],
        by rw [heq, List.cons_append], corr_not_meta hc⟩
  have hrender : renderChunk job meta jc chunk =
      job :: (meta ++ (chunk.flatten ++ [footerRender jc chunk.length])) := by
    simp [renderChunk]
  have hpm : parse_header_and_meta (renderChunk job meta jc chunk) =
      .ok (job, meta, 1 + meta.length) := by
    rw [hrender]
    exact parse_header_and_meta_build hj hm hall hhead
  have hdrop : (renderChunk job meta jc chunk).drop (1 + meta.length) =
      chunk.flatten ++ [footerRender jc chunk.length] := by
    rw [hrender]
    have h1 : (1 + meta.length) = meta.length + 1 := by omega
    rw [h1, List.drop_succ_cons, List.drop_left]
  have hpg : parse_groups_and_footer (renderChunk job meta jc chunk)
      (1 + meta.length) = .ok (chunk, footerRender jc chunk.length) := by
    rw [parse_groups_and_footer, hdrop]
    have hfl : chunk.flatten ++ [footerRender jc chunk.length] =
        chunk.flatten ++ footerRender jc chunk.length :: [] := rfl
    rw [hfl]
    exact parseItemsF_build chunk hchunk _ [] (1 + meta.length) (le_refl _) hfr
  have hval : validate_footer (footerRender jc chunk.length) jc chunk.length =
      .ok false :=
    validate_footer_render (extract_job_code_no_pipe hjc) chunk.length
  rw [run_main, hpm]
  dsimp only
  rw [hpg]
  dsimp only
  rw [hjc]
  dsimp only
  rw [hval]

lemma getD_map_lt {l : List (List (List Line))}
    {F : List (List Line) → List Line} {i : Nat} (h : i < l.length) :
    (l.map F).getD i [] = F (l.getD i []) := by
  rw [List.getD_eq_getElem?_getD, List.getD_eq_getElem?_getD,
    List.getElem?_map, List.getElem?_eq_getElem h]
  rfl

lemma renderChunk_getLast (job jc : Line) (meta : List Line)
    (c : List (List Line)) :
    (renderChunk job meta jc c).getLast? = some (footerRender jc c.length) := by
  have hshape : renderChunk job meta jc c =
      (job :: (meta ++ c.flatten)) ++ [footerRender jc c.length] := by
    simp [renderChunk]
  rw [hshape, List.getLast?_concat]

/-! ## Claim theorems -/

/-- C1: for every parsed document's fields and every positive batch size
B, `write_batches` succeeds and writes exactly the rendered chunks of
`batchChunks`; the concatenation of the chunks' item sequences in chunk
order is the original item sequence exactly (no loss, duplication or
reordering, each item's lines verbatim), and chunk `k` is the contiguous
slice `groups[k*B : (k+1)*B]`. -/
theorem write_batches_concat_eq (job : Line) (meta : List Line) (jc : Line)
    (groups : List (List Line)) (B : Int) (hB : 0 < B) :
    write_batches job meta groups B jc =
      .ok ((batchChunks (B.toNat - 1) groups).map (renderChunk job meta jc)) ∧
    (batchChunks (B.toNat - 1) groups).flatten = groups ∧
    ∀ k, (batchChunks (B.toNat - 1) groups).getD k [] =
      (groups.drop (k * B.toNat)).take B.toNat := by
  have hBpos : ¬ B ≤ 0 := by omega
  have hplus : (B.toNat - 1) + 1 = B.toNat := by omega
  refine ⟨by rw [write_batches, if_neg hBpos], ?_, ?_⟩
  · exact chunksF_flatten _ (le_refl _)
  · intro k
    rw [batchChunks, chunksF_getD _ k (le_refl _), hplus]

/-- C1 witness: the theorem applied at batch size 1. -/
theorem write_batches_concat_eq_witness :
    (0 : Int) < 1 ∧
    (write_batches [] [] ([] : List (List Line)) 1 [] =
        .ok ((batchChunks ((1 : Int).toNat - 1) []).map (renderChunk [] [] [])) ∧
      (batchChunks ((1 : Int).toNat - 1) ([] : List (List Line))).flatten = [] ∧
      ∀ k, (batchChunks ((1 : Int).toNat - 1)
          ([] : List (List Line))).getD k [] =
        (([] : List (List Line)).drop (k * (1 : Int).toNat)).take
          (1 : Int).toNat) :=
  ⟨by decide, write_batches_concat_eq [] [] [] [] 1 (by decide)⟩

/-- C4: for total item count T and batch size B ≥ 1 the writer emits
exactly ceil(T/B) = (T + B - 1)/B files; every chunk but the last holds
exactly B items, the last holds T mod B items (or B when B divides T),
and when 1 ≤ T < B there is exactly one chunk holding all the items. -/
theorem batch_partition_shape (groups : List (List Line)) (B : Int)
    (hB : 0 < B) :
    (∀ job meta jc, write_batches job meta groups B jc =
      .ok ((batchChunks (B.toNat - 1) groups).map (renderChunk job meta jc))) ∧
    (batchChunks (B.toNat - 1) groups).length =
      (groups.length + B.toNat - 1) / B.toNat ∧
    (∀ c ∈ (batchChunks (B.toNat - 1) groups).dropLast,
      c.length = B.toNat) ∧
    (∀ c, (batchChunks (B.toNat - 1) groups).getLast? = some c →
      c.length = if groups.length % B.toNat = 0 then B.toNat
        else groups.length % B.toNat) ∧
    (1 ≤ groups.length → groups.length < B.toNat →
      batchChunks (B.toNat - 1) groups = [groups]) := by
  have hBpos : ¬ B ≤ 0 := by omega
  have hplus : (B.toNat - 1) + 1 = B.toNat := by omega
  refine ⟨fun job meta jc => by rw [write_batches, if_neg hBpos], ?_, ?_, ?_, ?_⟩
  · rw [batchChunks, chunksF_length _ (le_refl _), hplus]
    have hrw : groups.length + (B.toNat - 1) = groups.length + B.toNat - 1 := by
      omega
    rw [hrw]
  · intro c hc
    rw [← hplus]
    exact chunksF_dropLast _ (le_refl _) c hc
  · intro c hc
    rw [← hplus]
    exact chunksF_getLast _ (le_refl _) c hc
  · intro h1 h2
    exact chunksF_singleton _ (le_refl _) h1 (by omega)

/-- C4 witness: the theorem applied at batch size 1. -/
theorem batch_partition_shape_witness :
    (0 : Int) < 1 ∧
    ((∀ job meta jc, write_batches job meta ([] : List (List Line)) 1 jc =
        .ok ((batchChunks ((1 : Int).toNat - 1) []).map
          (renderChunk job meta jc))) ∧
      (batchChunks ((1 : Int).toNat - 1) ([] : List (List Line))).length =
        (([] : List (List Line)).length + (1 : Int).toNat - 1) /
          (1 : Int).toNat ∧
      (∀ c ∈ (batchChunks ((1 : Int).toNat - 1)
          ([] : List (List Line))).dropLast, c.length = (1 : Int).toNat) ∧
      (∀ c, (batchChunks ((1 : Int).toNat - 1)
            ([] : List (List Line))).getLast? = some c →
        c.length = if ([] : List (List Line)).length % (1 : Int).toNat = 0
          then (1 : Int).toNat
          else ([] : List (List Line)).length % (1 : Int).toNat) ∧
      (1 ≤ ([] : List (List Line)).length →
        ([] : List (List Line)).length < (1 : Int).toNat →
        batchChunks ((1 : Int).toNat - 1) ([] : List (List Line)) = [[]])) :=
  ⟨by decide, batch_partition_shape [] 1 (by decide)⟩

/-- C3: each output file ends with the footer line
`FOOTER|<job code>|<actual chunk item count>`; and when the declared
footer count parses but differs from the actual total, `validate_footer`
still succeeds, only recording the warning — a count mismatch never
aborts. -/
theorem footer_actual_counts (job : Line) (meta : List Line) (jc : Line)
    (groups : List (List Line)) (B : Int) (hB : 0 < B)
    (f t cs : Line) (total : Nat) (k : Int)
    (hsplit : splitPipe f = [t, jc, cs]) (hk : parseInt cs = some k) :
    (write_batches job meta groups B jc =
      .ok ((batchChunks (B.toNat - 1) groups).map (renderChunk job meta jc))) ∧
    (∀ i, i < (batchChunks (B.toNat - 1) groups).length →
      (((batchChunks (B.toNat - 1) groups).map
          (renderChunk job meta jc)).getD i []).getLast? =
        some (footerRender jc
          ((batchChunks (B.toNat - 1) groups).getD i []).length)) ∧
    validate_footer f jc total = .ok (k != (total : Int)) := by
  have hBpos : ¬ B ≤ 0 := by omega
  refine ⟨by rw [write_batches, if_neg hBpos], ?_, ?_⟩
  · intro i hi
    rw [getD_map_lt hi, renderChunk_getLast]
  · simp only [validate_footer, hsplit]
    rw [if_neg (by simp), hk]

/-- C3 witness: the theorem at batch size 1 and footer `FOOTER|J1|5`
validated against an actual total of 1 (count mismatch, warning only). -/
theorem footer_actual_counts_witness :
    (0 : Int) < 1 ∧
    splitPipe ("FOOTER|J1|5".toList) =
      ["FOOTER".toList, "J1".toList, "5".toList] ∧
    parseInt ("5".toList) = some 5 ∧
    ((write_batches [] [] ([] : List (List Line)) 1 ("J1".toList) =
        .ok ((batchChunks ((1 : Int).toNat - 1) []).map
          (renderChunk [] [] ("J1".toList)))) ∧
      (∀ i, i < (batchChunks ((1 : Int).toNat - 1)
          ([] : List (List Line))).length →
        (((batchChunks ((1 : Int).toNat - 1) ([] : List (List Line))).map
            (renderChunk [] [] ("J1".toList))).getD i []).getLast? =
          some (footerRender ("J1".toList)
            ((batchChunks ((1 : Int).toNat - 1)
              ([] : List (List Line))).getD i []).length)) ∧
      validate_footer ("FOOTER|J1|5".toList) ("J1".toList) 1 =
        .ok ((5 : Int) != ((1 : Nat) : Int))) :=
  ⟨by decide, by rfl, by rfl,
    footer_actual_counts [] [] ("J1".toList) [] 1 (by decide)
      ("FOOTER|J1|5".toList) ("FOOTER".toList) ("5".toList) 1 5
      (by rfl) (by rfl)⟩

/-- C2: round-trip.  A document accepted by `run_main` serializes back
through the batch writer into files each of which `run_main` itself
accepts, reconstructing the same header, metadata and job code and
exactly the items of that file's chunk, in identical content and order,
with no footer-count warning. -/
theorem write_batches_roundtrip (lines : List Line) (d : Document) (B : Int)
    (hd : run_main lines = .ok d) (hB : 0 < B) :
    write_batches d.job_line d.meta_lines d.groups B d.job_code =
      .ok ((batchChunks (B.toNat - 1) d.groups).map
        (renderChunk d.job_line d.meta_lines d.job_code)) ∧
    ∀ k, k < (batchChunks (B.toNat - 1) d.groups).length →
      run_main (((batchChunks (B.toNat - 1) d.groups).map
          (renderChunk d.job_line d.meta_lines d.job_code)).getD k []) =
        .ok ⟨d.job_line, d.meta_lines,
          (batchChunks (B.toNat - 1) d.groups).getD k [], d.job_code, false⟩ := by
  have hBpos : ¬ B ≤ 0 := by omega
  obtain ⟨i, f, h₁, h₂, h₃, h₄⟩ := run_main_ok hd
  obtain ⟨rest, hlineseq, hj, hmetaeq, hmne, hieq⟩ := parse_header_and_meta_ok h₁
  have hall : ∀ m ∈ d.meta_lines, isMeta m = true := by
    intro m hm
    rw [hmetaeq] at hm
    exact List.mem_takeWhile_imp hm
  have hvalid : ∀ g ∈ d.groups, ValidItem g := (parseItemsF_ok h₂).2.2
  refine ⟨by rw [write_batches, if_neg hBpos], ?_⟩
  intro k hk
  have hchunkmem : (batchChunks (B.toNat - 1) d.groups).getD k [] ∈
      batchChunks (B.toNat - 1) d.groups := by
    rw [List.getD_eq_getElem?_getD, List.getElem?_eq_getElem hk]
    exact List.getElem_mem hk
  have hchunkvalid : ∀ g ∈ (batchChunks (B.toNat - 1) d.groups).getD k [],
      ValidItem g := by
    intro g hg
    apply hvalid
    rw [← chunksF_flatten (B.toNat - 1) (le_refl d.groups.length)]
    exact List.mem_flatten.mpr ⟨_, hchunkmem, hg⟩
  rw [getD_map_lt hk]
  exact run_main_render hj hmne hall h₃ hchunkvalid

/-- C2 witness: the theorem applied to the parsed sample file at batch
size 1. -/
theorem write_batches_roundtrip_witness :
    run_main sampleLines = .ok sampleDoc ∧ (0 : Int) < 1 ∧
    (write_batches sampleDoc.job_line sampleDoc.meta_lines sampleDoc.groups 1
        sampleDoc.job_code =
      .ok ((batchChunks ((1 : Int).toNat - 1) sampleDoc.groups).map
        (renderChunk sampleDoc.job_line sampleDoc.meta_lines
          sampleDoc.job_code)) ∧
    ∀ k, k < (batchChunks ((1 : Int).toNat - 1) sampleDoc.groups).length →
      run_main (((batchChunks ((1 : Int).toNat - 1) sampleDoc.groups).map
          (renderChunk sampleDoc.job_line sampleDoc.meta_lines
            sampleDoc.job_code)).getD k []) =
        .ok ⟨sampleDoc.job_line, sampleDoc.meta_lines,
          (batchChunks ((1 : Int).toNat - 1) sampleDoc.groups).getD k [],
          sampleDoc.job_code, false⟩) :=
  ⟨rfl, by decide, write_batches_roundtrip sampleLines sampleDoc 1 rfl (by decide)⟩

/-- C5 (amended): for the primary parser an item is a correlation line
followed by role and plan lines in any order and any number; it reports
`IncompleteItem` only with a zero role count or a zero plan count,
citing the item's correlation line (a line of the input) and the
observed counts; whenever it succeeds every parsed item has at least one
role and one plan line; and the concrete file whose second item has zero
role lines fails with `IncompleteItem` citing that item's correlation
line and counts 0, 1.  The sibling variant instead accepts exactly one
role line then one plan line in that fixed order (as its success shape
shows) and fails a zero-role item with its Expected-role error, never
with `IncompleteItem` and counts: see the counterexample. -/
theorem incomplete_item_characterization :
    (∀ (lines : List Line) (start_idx : Nat) (c : Line) (r p : Nat),
      parse_groups_and_footer lines start_idx =
          .error (.IncompleteItem c r p) →
        (r = 0 ∨ p = 0) ∧ isCorr c = true ∧ c ∈ lines) ∧
    (∀ (lines : List Line) (start_idx : Nat) (gs : List (List Line))
        (f : Line),
      parse_groups_and_footer lines start_idx = .ok (gs, f) →
        ∀ g ∈ gs, ValidItem g) ∧
    parse_groups_and_footer exampleNoRole 0 =
      .error (.IncompleteItem ("CLNT_CORR|2".toList) 0 1) ∧
    (∀ (ls : List Line) (i : Nat) (gs : List (List Line)) (f : Line),
      xParseItems ls i = .ok (gs, f) →
        ∀ g ∈ gs, ∃ c r p, g = [c, r, p] ∧ isCorr c = true ∧
          isRole r = true ∧ isPlan p = true) := by
  refine ⟨?_, ?_, ?_, ?_⟩
  · intro lines i c r p h
    obtain ⟨hz, hc, hmem⟩ := parseItemsF_incomplete h
    exact ⟨hz, hc, List.mem_of_mem_drop hmem⟩
  · intro lines i gs f h
    exact (parseItemsF_ok h).2.2
  · rfl
  · intro ls i gs f h
    exact (xParseItems_ok ls.length (le_refl _) h).2

/-- C5 counterexample: on the file whose second item has zero role lines
the sibling variant fails with its fixed-order Expected-role error at
the offending line — not with `IncompleteItem` citing the correlation
line and the observed counts (its error taxonomy carries no counts at
all) — and it likewise rejects an item whose role and plan lines are in
the other order, which the primary parser accepts. -/
theorem variant_fixed_order_item :
    xParseItems exampleNoRole 0 = .error (.ExpectedRole 5) ∧
    xParseItems reorderLines 0 = .error (.ExpectedRole 2) ∧
    parse_groups_and_footer reorderLines 0 =
      .ok ([["CLNT_CORR|1".toList, "PLAN|p1".toList, "CLNT_ROLE|r1".toList]],
        "FOOTER|J1|1".toList) :=
  ⟨rfl, rfl, rfl⟩

/-- C6 (amended): the primary parser's item loop stops exactly at the
first footer-tagged line or at the end of input: on success the consumed
lines are precisely the items followed by the footer line and no item
line is footer-tagged; and a well-formed item sequence not followed by
any footer line fails with `MissingFooter` and with no other failure.
(The sibling variant does not satisfy the claim as stated: see the
counterexample, an out-of-bounds access.) -/
theorem parse_stop_missing_footer :
    (∀ (lines : List Line) (start_idx : Nat) (gs : List (List Line))
        (f : Line),
      parse_groups_and_footer lines start_idx = .ok (gs, f) →
        isFooter f = true ∧
        (∃ rest, lines.drop start_idx = gs.flatten ++ f :: rest) ∧
        ∀ l ∈ gs.flatten, isFooter l = false) ∧
    (∀ (items : List (List Line)), (∀ g ∈ items, ValidItem g) →
      ∀ (lines : List Line) (start_idx : Nat),
        lines.drop start_idx = items.flatten →
        parse_groups_and_footer lines start_idx = .error .MissingFooter) := by
  constructor
  · intro lines i gs f h
    obtain ⟨hf, hex, hvalid⟩ := parseItemsF_ok h
    exact ⟨hf, hex, validItem_no_footer hvalid⟩
  · intro items hvalid lines i hdrop
    rw [parse_groups_and_footer, hdrop]
    exact parseItemsF_nofooter items hvalid i (le_refl _)

/-- C6 counterexample: the sibling variant's parser, on an input that
ends right after a correlation line (so the input ends with no
footer-tagged line anywhere), fails with the modelled out-of-bounds
access `IndexError` — not with `MissingFooter` as the claim states. -/
theorem variant_parse_oob :
    xParseItems ["CLNT_CORR|1".toList] 0 = .error .IndexError ∧
    xParseItems ["CLNT_CORR|1".toList] 0 ≠ .error .MissingFooter := by
  constructor
  · rfl
  · intro h
    exact XErr.noConfusion (Except.error.inj
      ((rfl : xParseItems (["CLNT_CORR|1".toList]) 0 =
        Except.error XErr.IndexError).symm.trans h))

/-- C7 (amended): in the primary implementation, once a file parses up
to footer validation and its footer splits into its three fields, a
job-code field different from the header's job code makes the whole run
fail with `FooterJobMismatch` (citing both codes), and a matching
job-code field can never produce that failure.  The sibling variant
never validates the footer: whenever its own parsing stages succeed its
run completes and writes its batches regardless of the footer's job
code, so no footer job mismatch ever fails there (see the
counterexample). -/
theorem footer_job_mismatch_iff (lines : List Line)
    (job f t fjc cs jc : Line) (meta : List Line) (i : Nat)
    (groups : List (List Line))
    (h₁ : parse_header_and_meta lines = .ok (job, meta, i))
    (h₂ : parse_groups_and_footer lines i = .ok (groups, f))
    (h₃ : extract_job_code job = .ok jc)
    (hsplit : splitPipe f = [t, fjc, cs]) :
    (fjc ≠ jc → run_main lines = .error (.FooterJobMismatch fjc jc)) ∧
    (fjc = jc → ∀ e, run_main lines = .error e →
      ∀ a b, e ≠ .FooterJobMismatch a b) ∧
    (∀ B : Int, 1 ≤ B →
      ∀ (xjob : Line) (xmeta : List Line) (xi : Nat)
        (xgroups : List (List Line)) (xf xjc : Line),
      x_parse_header_and_meta lines = .ok (xjob, xmeta, xi) →
      xParseItems (lines.drop xi) xi = .ok (xgroups, xf) →
      x_extract_job_code xjob = .ok xjc →
      ∃ files, x_run_main lines B = .ok files) := by
  refine ⟨?_, ?_, ?_⟩
  · intro hne
    have hval : validate_footer f jc groups.length =
        .error (.FooterJobMismatch fjc jc) := by
      simp only [validate_footer, hsplit]
      rw [if_pos hne]
    rw [run_main, h₁]
    dsimp only
    rw [h₂]
    dsimp only
    rw [h₃]
    dsimp only
    rw [hval]
  · intro heq e he a b
    subst heq
    rw [run_main, h₁] at he
    dsimp only at he
    rw [h₂] at he
    dsimp only at he
    rw [h₃] at he
    dsimp only at he
    rcases hpi : parseInt cs with _ | k
    · have hval : validate_footer f fjc groups.length =
          .error .MalformedFooter := by
        simp only [validate_footer, hsplit]
        rw [if_neg (by simp), hpi]
      rw [hval] at he
      dsimp only at he
      simp only [Except.error.injEq] at he
      subst he
      simp
    · have hval : validate_footer f fjc groups.length =
          .ok (k != (groups.length : Int)) := by
        simp only [validate_footer, hsplit]
        rw [if_neg (by simp), hpi]
      rw [hval] at he
      dsimp only at he
      exact absurd he (by simp)
  · intro B hB xjob xmeta xi xgroups xf xjc hx₁ hx₂ hx₃
    rw [x_run_main, hx₁]
    dsimp only
    rw [hx₂]
    dsimp only
    rw [hx₃]
    dsimp only
    rw [x_write_batches, if_neg (by omega), if_neg (by omega)]
    exact ⟨_, rfl⟩

/-- C7 counterexample: the sibling variant's run on the concrete file
whose footer job code (`J2`) differs from the header's (`J1`) does not
fail with `FooterJobMismatch` — or with anything: it completes and
writes its single batch. -/
theorem variant_footer_mismatch_ignored :
    x_run_main mismatchLines 1 =
      .ok [renderChunk ("JOB|J1|x".toList) ["META_A|y".toList]
        ("J1".toList)
        [["CLNT_CORR|1".toList, "CLNT_ROLE|r1".toList, "PLAN|p1".toList]]] ∧
    ∀ e, x_run_main mismatchLines 1 ≠ .error e := by
  constructor
  · rfl
  · intro e h
    exact Except.noConfusion
      ((rfl : x_run_main mismatchLines 1 =
        .ok [renderChunk ("JOB|J1|x".toList) ["META_A|y".toList]
          ("J1".toList)
          [["CLNT_CORR|1".toList, "CLNT_ROLE|r1".toList,
            "PLAN|p1".toList]]]).symm.trans h)

/-- C7 witness: the concrete mismatching file (`JOB|J1|…` against
`FOOTER|J2|1`) fails with `FooterJobMismatch` citing both codes. -/
theorem footer_job_mismatch_iff_witness :
    parse_header_and_meta mismatchLines =
      .ok ("JOB|J1|x".toList, ["META_A|y".toList], 2) ∧
    parse_groups_and_footer mismatchLines 2 =
      .ok ([["CLNT_CORR|1".toList, "CLNT_ROLE|r1".toList, "PLAN|p1".toList]],
        "FOOTER|J2|1".toList) ∧
    extract_job_code ("JOB|J1|x".toList) = .ok ("J1".toList) ∧
    splitPipe ("FOOTER|J2|1".toList) =
      ["FOOTER".toList, "J2".toList, "1".toList] ∧
    run_main mismatchLines =
      .error (.FooterJobMismatch ("J2".toList) ("J1".toList)) :=
  ⟨rfl, rfl, rfl, rfl,
    (footer_job_mismatch_iff mismatchLines ("JOB|J1|x".toList)
      ("FOOTER|J2|1".toList) ("FOOTER".toList) ("J2".toList) ("1".toList)
      ("J1".toList) ["META_A|y".toList] 2
      [["CLNT_CORR|1".toList, "CLNT_ROLE|r1".toList, "PLAN|p1".toList]]
      rfl rfl rfl rfl).1 (by decide)⟩

/-- C8 (amended): with a well-formed header line, the primary
`parse_header_and_meta` fails with `MissingMetadata` exactly when no
metadata-tagged line follows the header, and parsing proceeds only with
a nonempty metadata block.  The sibling variant imposes no such
requirement: on any well-formed header it succeeds with whatever
(possibly empty) metadata run follows, so it never fails with a
missing-metadata error (see the counterexample). -/
theorem missing_metadata_iff (job : Line) (rest : List Line)
    (hj : isJob job = true) :
    (parse_header_and_meta (job :: rest) = .error .MissingMetadata ↔
      headIsMeta rest = false) ∧
    (∀ job' meta i, parse_header_and_meta (job :: rest) =
      .ok (job', meta, i) → meta ≠ []) ∧
    x_parse_header_and_meta (job :: rest) =
      .ok (job, rest.takeWhile isMeta, 1 + (rest.takeWhile isMeta).length) := by
  have hiff : rest.takeWhile isMeta = [] ↔ headIsMeta rest = false := by
    cases rest with
    | nil => simp [headIsMeta]
    | cons l tail =>
      rw [headIsMeta, List.takeWhile_cons]
      by_cases hl : isMeta l = true
      · rw [if_pos hl]
        simp [hl]
      · rw [if_neg hl]
        simp only [Bool.not_eq_true] at hl
        simp [hl]
  constructor
  · by_cases hm : rest.takeWhile isMeta = []
    · have hp : parse_header_and_meta (job :: rest) =
          .error .MissingMetadata := by
        simp only [parse_header_and_meta]
        rw [if_neg (by simp [hj]), if_pos hm]
      rw [hp]
      simp [hiff.mp hm]
    · have hp : parse_header_and_meta (job :: rest) =
          .ok (job, rest.takeWhile isMeta,
            1 + (rest.takeWhile isMeta).length) := by
        simp only [parse_header_and_meta]
        rw [if_neg (by simp [hj]), if_neg hm]
      rw [hp]
      constructor
      · intro h
        exact absurd h (by simp)
      · intro h
        exact absurd (hiff.mpr h) hm
  · constructor
    · intro job' meta i h
      obtain ⟨rest', heq, -, -, hne, -⟩ := parse_header_and_meta_ok h
      exact hne
    · simp only [x_parse_header_and_meta]
      rw [if_neg (by simp [hj])]

/-- C8 counterexample: the sibling variant accepts the concrete
well-formed file with zero metadata lines — its header parse succeeds
with an empty metadata block and its whole run completes without any
failure — while the primary parser fails it with `MissingMetadata`. -/
theorem variant_zero_metadata_ok :
    x_parse_header_and_meta noMetaLines = .ok ("JOB|A|x".toList, [], 1) ∧
    (∀ e, x_run_main noMetaLines 1 ≠ .error e) ∧
    parse_header_and_meta noMetaLines = .error .MissingMetadata := by
  refine ⟨rfl, ?_, rfl⟩
  intro e h
  exact Except.noConfusion
    ((rfl : x_run_main noMetaLines 1 =
      .ok [renderChunk ("JOB|A|x".toList) [] ("A".toList)
        [["CLNT_CORR|1".toList, "CLNT_ROLE|r".toList,
          "PLAN|p".toList]]]).symm.trans h)

/-- C8 witness: a well-formed header immediately followed by an item
line fails with `MissingMetadata`. -/
theorem missing_metadata_iff_witness :
    isJob ("JOB|A".toList) = true ∧
    parse_header_and_meta ["JOB|A".toList, "CLNT_CORR|1".toList] =
      .error .MissingMetadata :=
  ⟨by decide, (missing_metadata_iff ("JOB|A".toList) ["CLNT_CORR|1".toList]
    (by decide)).1.mpr (by decide)⟩

/-- C9 (amended): the primary `write_batches` fails with
`InvalidBatchSize` exactly when B ≤ 0 — and an error writes no files —
never fails for any other reason, and succeeds for every B ≥ 1.  The
sibling variant has no such check: with a negative B it writes no files
and raises nothing, and with B = 0 it fails with the range-step error
instead. -/
theorem invalid_batch_size_iff (job : Line) (meta : List Line)
    (groups : List (List Line)) (jc : Line) (B : Int) :
    (write_batches job meta groups B jc = .error .InvalidBatchSize ↔
      B ≤ 0) ∧
    (∀ e, write_batches job meta groups B jc = .error e →
      e = .InvalidBatchSize) ∧
    (1 ≤ B → ∃ files, write_batches job meta groups B jc = .ok files) ∧
    (B < 0 → x_write_batches job meta groups B jc = .ok []) ∧
    x_write_batches job meta groups 0 jc = .error .RangeZeroStep := by
  refine ⟨?_, ?_, ?_, ?_, ?_⟩
  · by_cases hb : B ≤ 0
    · rw [write_batches, if_pos hb]
      simp [hb]
    · rw [write_batches, if_neg hb]
      simp [hb]
  · intro e he
    by_cases hb : B ≤ 0
    · rw [write_batches, if_pos hb] at he
      simp only [Except.error.injEq] at he
      exact he.symm
    · rw [write_batches, if_neg hb] at he
      exact absurd he (by simp)
  · intro hb
    rw [write_batches, if_neg (by omega)]
    exact ⟨_, rfl⟩
  · intro hb
    rw [x_write_batches, if_neg (by omega), if_pos hb]
  · rw [x_write_batches, if_pos rfl]

/-- C9 counterexample: the variant writer at batch size -1 on a nonempty
item list does not fail with `InvalidBatchSize` — or at all: it returns
successfully having written no output files. -/
theorem variant_negative_batch_no_error :
    x_write_batches ("JOB|A".toList) [] [["CLNT_CORR|1".toList]] (-1)
        ("A".toList) = .ok [] ∧
    ∀ e, x_write_batches ("JOB|A".toList) [] [["CLNT_CORR|1".toList]] (-1)
        ("A".toList) ≠ .error e := by
  constructor
  · rfl
  · intro e h
    exact Except.noConfusion
      ((rfl : x_write_batches ("JOB|A".toList) [] [["CLNT_CORR|1".toList]]
        (-1) ("A".toList) = .ok []).symm.trans h)

/-- C10: a first line passing the header check (`JOB|` prefix) always
splits into at least two fields, so `extract_job_code` cannot take its
fewer-than-two-fields error branch and the variant's unguarded
`split("|")[1]` never raises: both return the second field. -/
theorem job_code_extraction_total (s : Line) (h : isJob s = true) :
    2 ≤ (splitPipe s).length ∧
    extract_job_code s = .ok ((splitPipe s).getD 1 []) ∧
    x_extract_job_code s = .ok ((splitPipe s).getD 1 []) :=
  extract_job_code_of_isJob h

/-- C10 witness: the theorem at the concrete header `JOB|J1|x`. -/
theorem job_code_extraction_total_witness :
    isJob ("JOB|J1|x".toList) = true ∧
    (2 ≤ (splitPipe ("JOB|J1|x".toList)).length ∧
      extract_job_code ("JOB|J1|x".toList) =
        .ok ((splitPipe ("JOB|J1|x".toList)).getD 1 []) ∧
      x_extract_job_code ("JOB|J1|x".toList) =
        .ok ((splitPipe ("JOB|J1|x".toList)).getD 1 [])) :=
  ⟨by decide, job_code_extraction_total ("JOB|J1|x".toList) (by decide)⟩
